import Mathlib

/-!
Verification of the rpi-gamehawk word-hunt solver.

This file gives a shallow embedding, in Lean 4, of the algorithmic core of the
repository (src/solver.py, src/mouse/word_hunt_solver.py, src/mouse/build_trie.py,
src/finetune.py) and proves the behavioural claims about it.

Modelling conventions:
* Python tuples `(row, col)` become `Pos := Nat × Nat`; board cells are
  accessed through `getCell` (the Python code only ever indexes in range).
* Python dicts become association lists (`assoc` lookup); a trie dict with an
  optional `"$": True` entry becomes the inductive `Trie` carrying a `term`
  flag plus a child list.  Python's `if not next_node:` treats the empty dict
  as false, modelled by `Trie.falsy`.
* Python sets of words become duplicate-free lists built with `insertResult`;
  iteration-order nondeterminism of a set is modelled by an explicit
  enumeration parameter `enum` (a permutation) in `find_words_enum`.
* Python ints are `Int`/`Nat`; the float arithmetic in
  `get_grid_coordinates` (integer endpoints divided by 3, scaled by 0..3 and
  truncated with `int(...)`) is modelled over `ℚ`, exact at every input
  considered here.
-/

abbrev Pos : Type := Nat × Nat
abbrev Word : Type := List Char
abbrev Board : Type := List (List Char)

/-- Board access `board[row][col]` (the solver only indexes in range). -/
def getCell (b : Board) (p : Pos) : Char :=
  ((b.getD p.1 []).getD p.2 ' ')

/-- Association-list lookup, modelling Python `dict` access. -/
def assoc {κ ν : Type} [DecidableEq κ] (l : List (κ × ν)) (k : κ) : Option ν :=
  match l with
  | [] => none
  | (k', v) :: rest => if k = k' then some v else assoc rest k

/-- Prefix-tree node: Python dict mapping each character to a child dict,
with an optional `"$": True` entry marked by `term`. -/
inductive Trie where
  | node (term : Bool) (children : List (Char × Trie))

def Trie.term : Trie → Bool
  | .node t _ => t

def Trie.children : Trie → List (Char × Trie)
  | .node _ c => c

/-- Lookup of a character in a child list (Python `char in node` / `node[char]`). -/
def childLookup : List (Char × Trie) → Char → Option Trie
  | [], _ => none
  | (c', t') :: rest, c => if c = c' then some t' else childLookup rest c

/-- Child lookup `node.get(letter)`. -/
def Trie.find? (t : Trie) (c : Char) : Option Trie :=
  childLookup t.children c

/-- A Python empty dict `{}` is falsy; `if not next_node:` also prunes there. -/
def Trie.falsy (t : Trie) : Bool :=
  !t.term && t.children.isEmpty

/-- `get_neighbors` from src/solver.py lines 35-41: the 8 compass offsets,
clipped to `[0, num_rows) × [0, num_cols)`. -/
def get_neighbors (row col numRows numCols : Nat) : List Pos :=
  ([-1, 0, 1] : List Int).flatMap fun dr =>
    ([-1, 0, 1] : List Int).filterMap fun dc =>
      let r : Int := (row : Int) + dr
      let c : Int := (col : Int) + dc
      if (¬(dr = 0 ∧ dc = 0)) ∧ 0 ≤ r ∧ r < (numRows : Int) ∧ 0 ≤ c ∧ c < (numCols : Int) then
        some (r.toNat, c.toNat)
      else none

/-- Mutable accumulators of the Python dfs: the `results` set and the
`paths` dict (insertion ordered). -/
structure DfsAcc where
  results : List Word
  paths : List (Word × List Pos)
deriving DecidableEq, Repr

/-- `results.add(current_word)`: set insertion, deduplicating. -/
def insertResult (w : Word) (l : List Word) : List Word :=
  if w ∈ l then l else l ++ [w]

/-- Lines 63-66 of src/solver.py: add the word to the result set and record
the path only if the word has no recorded path yet. -/
def recordWord (w : Word) (p : List Pos) (acc : DfsAcc) : DfsAcc :=
  { results := insertResult w acc.results
    paths := if (assoc acc.paths w).isSome then acc.paths else acc.paths ++ [(w, p)] }

/-- `dfs` from src/solver.py lines 43-73.  The Python function mutates
`visited`/`current_word`/`current_path` but restores them before returning,
so its net effect is on `results`/`paths` only; the embedding threads the
restored state explicitly and returns the new accumulator.  `fuel` bounds the
recursion depth; the Python recursion depth is bounded by the number of
distinct cells, so any fuel larger than `rows*cols` reproduces it exactly.
Python calls `get_neighbors(row, col)` with its default 4x4 bounds. -/
def dfs : Nat → Nat → Nat → Board → Trie → List Pos → Word → List Pos → DfsAcc → DfsAcc
  | 0, _, _, _, _, _, _, _, acc => acc
  | fuel+1, row, col, board, node, visited, word, path, acc =>
    let letter := getCell board (row, col)
    match node.find? letter with
    | none => acc
    | some next =>
      if next.falsy then acc
      else
        let visited' := (row, col) :: visited
        let word' := word ++ [letter]
        let path' := path ++ [(row, col)]
        let acc' := if next.term ∧ 3 ≤ word'.length then recordWord word' path' acc else acc
        (get_neighbors row col 4 4).foldl
          (fun a p => if p ∈ visited' then a else dfs fuel p.1 p.2 board next visited' word' path' a)
          acc'

/-- Sort key of src/solver.py line 86: `key=lambda w: (-len(w), w)` —
longer words first, ties in ascending lexicographic order. -/
def wordLE (a b : Word) : Prop :=
  b.length < a.length ∨ (a.length = b.length ∧ a ≤ b)

instance : DecidableRel wordLE := fun a b => by
  unfold wordLE; infer_instance

/-- `SOLVER_NUMWORDS_LIMIT = 500`. -/
def SOLVER_NUMWORDS_LIMIT : Nat := 500

/-- The accumulator produced by the double loop of `find_words`
(src/solver.py lines 75-84): dfs started from every cell against the
root filtered to letters present on the board. -/
def solveAcc (board : Board) (trie : Trie) : DfsAcc :=
  let boardLetters := board.flatten
  let validStarts : Trie := .node false (trie.children.filter fun cn => cn.1 ∈ boardLetters)
  let cells := (List.range board.length).flatMap fun r =>
    (List.range (board.headD []).length).map fun c => (r, c)
  let fuel := board.length * (board.headD []).length + 1
  cells.foldl (fun a p => dfs fuel p.1 p.2 board validStarts [] [] [] a) ⟨[], []⟩

/-- `find_words` (src/solver.py lines 75-89), with the iteration order of the
Python `results` set made explicit: `enum` enumerates the set (any
permutation of the accumulated duplicate-free list). -/
def find_words_enum (board : Board) (trie : Trie) (enum : List Word → List Word) :
    List (Word × List Pos) :=
  let acc := solveAcc board trie
  let sortedWords := (enum acc.results).insertionSort wordLE
  let limited := sortedWords.take SOLVER_NUMWORDS_LIMIT
  limited.map fun w => (w, (assoc acc.paths w).getD [])

/-- `find_words` with the identity enumeration. -/
def find_words (board : Board) (trie : Trie) : List (Word × List Pos) :=
  find_words_enum board trie id

/-- A small concrete trie containing only the word cat, used by witnesses. -/
def trieCat : Trie :=
  .node false [('c', .node false [('a', .node false [('t', .node true [])])])]

/-- A concrete 4x4 board whose first row spells cat, used by witnesses. -/
def boardCat : Board :=
  [['c','a','t','x'], ['q','q','q','q'], ['q','q','q','q'], ['q','q','q','q']]

/-! ### Movement controller (`MouseSE.goto`, src/solver.py lines 120-141) -/

/-- `FIXED_DELTA = 10` in src/solver.py. -/
def FIXED_DELTA : Nat := 10

/-- One per-axis step: `int(math.copysign(min(abs(d), maxStep), d))` when the
remaining delta `d` is nonzero, else `0` (all quantities are exact integers). -/
def stepToward (maxStep : Nat) (d : Int) : Int :=
  if d = 0 then 0
  else if 0 < d then min d (maxStep : Int)
  else -(min (-d) (maxStep : Int))

/-- The `goto` loop: from the current tracked position, while either remaining
delta is nonzero, emit a combined step and advance.  Returns the list of
(position before the step, emitted step) pairs and the final tracked
position.  `fuel` bounds the iteration count; any fuel at least
`|dx| + |dy|` reproduces the Python loop exactly (proved below). -/
def gotoTrace (maxStep : Nat) :
    Nat → Int × Int → Int × Int → List ((Int × Int) × (Int × Int)) × (Int × Int)
  | 0, cur, _ => ([], cur)
  | fuel+1, cur, tgt =>
    if tgt.1 - cur.1 = 0 ∧ tgt.2 - cur.2 = 0 then ([], cur)
    else
      let sx := stepToward maxStep (tgt.1 - cur.1)
      let sy := stepToward maxStep (tgt.2 - cur.2)
      let res := gotoTrace maxStep fuel (cur.1 + sx, cur.2 + sy) tgt
      ((cur, (sx, sy)) :: res.1, res.2)

/-! ### Coordinate mapper (src/mouse/word_hunt_solver.py) -/

/-- The exact value of the Python float expression
`tl + k * ((br - tl) / 3)` is the rational `(3*tl + k*(br-tl)) / 3`;
Python `int(...)` truncates it toward zero, which on a quotient of integers
with positive divisor is `Int.tdiv`.  (At every input appearing in this
development the double-precision computation is exact or truncates to the
same integer, so the exact model is faithful.) -/
def interpAxis (tl br : Int) (k : Nat) : Int :=
  Int.tdiv (3 * tl + (k : Int) * (br - tl)) 3

/-- One interpolated cell centre of `get_grid_coordinates`:
`(int(TL_X + col*step_x), int(TL_Y + row*step_y))`. -/
def gridCell (tl br : Int × Int) (row col : Nat) : Int × Int :=
  (interpAxis tl.1 br.1 col, interpAxis tl.2 br.2 row)

/-- `get_grid_coordinates` (src/mouse/word_hunt_solver.py lines 21-38),
parameterised by the two corner constants (the source fixes
`TOP_LEFT = (7500, 15750)` and `BOTTOM_RIGHT = (25000, 24000)`):
the dict mapping every (row, col) of the 4x4 grid to its interpolated
centre. -/
def get_grid_coordinates (tl br : Int × Int) : List ((Nat × Nat) × (Int × Int)) :=
  (List.range 4).flatMap fun row =>
    (List.range 4).map fun col => ((row, col), gridCell tl br row col)

/-- The clamp performed by `AbsoluteMouse.send_cmd` (lines 119-127):
`max(0, min(32767, v))`, applied to each axis of a sent coordinate. -/
def clampAbs (v : Int) : Int := max 0 (min 32767 v)

/-- The coordinate actually delivered by `send_cmd` for a requested (x, y). -/
def send_cmd_pos (x y : Int) : Int × Int := (clampAbs x, clampAbs y)

/-- Modelled from the spec's words, for comparison with the source:
"rounded to nearest integer" of the exact value `a / 3`; half rounds up,
`⌊a/3 + 1/2⌋ = (2*a + 3) ediv 6` (ties at halves never arise for thirds). -/
def roundDiv3 (a : Int) : Int := Int.ediv (2 * a + 3) 6

/-- Modelled from the spec's words: interpolated cell coordinate with
per-axis step `(bottom_right - top_left) / 3`, rounded to nearest. -/
def spec_cell_coord_round (tl br : Int × Int) (row col : Nat) : Int × Int :=
  (roundDiv3 (3 * tl.1 + (col : Int) * (br.1 - tl.1)),
   roundDiv3 (3 * tl.2 + (row : Int) * (br.2 - tl.2)))

/-- The amended closed form: interpolated cell coordinate truncated toward
zero (Python `int`), then clamped as `send_cmd` does. -/
def spec_cell_coord_trunc (tl br : Int × Int) (row col : Nat) : Int × Int :=
  (clampAbs (interpAxis tl.1 br.1 col), clampAbs (interpAxis tl.2 br.2 row))

/-! ### Calibration table (src/solver.py lines 18-23 and 154-159) -/

/-- `load_mouse_positions`: builds the cell-to-coordinate mapping from the
parsed JSON entries.  It performs no completeness validation. -/
def load_mouse_positions (data : List (Nat × Int × Int)) : List (Nat × (Int × Int)) :=
  data.map fun e => (e.1, (e.2.1, e.2.2))

/-- `coord_to_index`: row-major cell index `row * 4 + col`. -/
def coord_to_index (c : Pos) : Nat := c.1 * 4 + c.2

/-- `convert_coord_to_mouse_pos`: the dict access `mouse_positions[idx]`.
Python raises `KeyError` on a missing index, modelled by `none`. -/
def convert_coord_to_mouse_pos (c : Pos) (mp : List (Nat × (Int × Int))) :
    Option (Int × Int) :=
  assoc mp (coord_to_index c)

/-- Observable gesture events of the main loop of src/solver.py. -/
inductive GestureEvent where
  | moveTo (p : Int × Int)
  | press
  | release
deriving DecidableEq, Repr

/-- The drag phase of one word (`for pos in coords[1:]`): each cell is
converted and moved to; a missing table index stops the run right there
(Python `KeyError` propagates).  Returns the emitted events and whether the
run crashed. -/
def dragEvents (mp : List (Nat × (Int × Int))) : List Pos → List GestureEvent × Bool
  | [] => ([], false)
  | c :: cs =>
    match convert_coord_to_mouse_pos c mp with
    | none => ([], true)
    | some p =>
      let res := dragEvents mp cs
      (GestureEvent.moveTo p :: res.1, res.2)

/-- One word's gesture in the main loop (src/solver.py lines 188-204):
hover to the first cell, press, drag through the rest, release.  A missing
table entry crashes the run at the point of use, after the earlier events
were already emitted. -/
def runWordGesture (mp : List (Nat × (Int × Int))) (coords : List Pos) :
    List GestureEvent × Bool :=
  match coords with
  | [] => ([], true)
  | c0 :: rest =>
    match convert_coord_to_mouse_pos c0 mp with
    | none => ([], true)
    | some p =>
      let res := dragEvents mp rest
      if res.2 then ([.moveTo p, .press] ++ res.1, true)
      else ([.moveTo p, .press] ++ res.1 ++ [.release], false)

/-- A complete 16-entry calibration table used by witnesses. -/
def fullTable : List (Nat × (Int × Int)) :=
  (List.range 16).map fun i => (i, ((100 * i : Int), (50 * i : Int)))

/-! ### Transport failure handling (src/solver.py lines 99-104 and 188-204) -/

/-- Outcome of one `send_current` call: the DBus send either succeeds or
raises, in which case the handler prints an error and returns normally. -/
inductive SendOutcome where
  | delivered
  | failedLogged
deriving DecidableEq, Repr

/-- `MouseClient.send_current` given whether the underlying delivery works:
every exception is caught and logged, the call always returns. -/
def send_current (ok : Bool) : SendOutcome :=
  if ok then .delivered else .failedLogged

/-- The kinds of pointer-state deliveries one word's gesture performs. -/
inductive StepKind where
  | moveStep
  | pressStep
  | dragStep
  | releaseStep
deriving DecidableEq, Repr

/-- The delivery plan of one word: hover moves, press, drag moves, release. -/
def gesturePlan (nHover nDrag : Nat) : List StepKind :=
  List.replicate nHover .moveStep ++ [.pressStep] ++
    List.replicate nDrag .dragStep ++ [.releaseStep]

/-- Executing a plan against a delivery oracle: every step is sent through
`send_current` in order; no failure aborts the remainder and no failure is
re-raised (src/solver.py has no distinct handling for any step kind). -/
def runGesture (plan : List StepKind) (oracle : List Bool) :
    List (StepKind × SendOutcome) :=
  (plan.zip oracle).map fun ko => (ko.1, send_current ko.2)

/-! ### Dictionary trie builder (src/mouse/build_trie.py lines 7-39) -/

/-- Replace the binding of `c` in a child list (Python `node = node[char]`
then mutation through the alias). -/
def replaceChild : List (Char × Trie) → Char → Trie → List (Char × Trie)
  | [], _, _ => []
  | (c', t') :: rest, c, t =>
    if c' = c then (c', t) :: rest else (c', t') :: replaceChild rest c t

/-- Insert one word: descend character by character, creating child nodes on
demand (`if char not in node: node[char] = {}`), and mark the final node
terminal (`node['$'] = True`). -/
def trieInsert : Trie → Word → Trie
  | .node _ ch, [] => .node true ch
  | .node t ch, c :: cs =>
    match childLookup ch c with
    | some child => .node t (replaceChild ch c (trieInsert child cs))
    | none => .node t (ch ++ [(c, trieInsert (.node false []) cs)])

/-- The filter of build_trie: skip empty words, words with a non-alphabetic
character (Python `str.isalpha`, false on the empty string), and words
shorter than 3 characters. -/
def wordOk (w : Word) : Bool :=
  !w.isEmpty && w.all Char.isAlpha && decide (3 ≤ w.length)

/-- `build_trie`: fold the accepted words into an initially empty trie. -/
def build_trie (ws : List Word) : Trie :=
  ws.foldl (fun t w => if wordOk w then trieInsert t w else t) (.node false [])

/-- Whether a word is present: follow its characters from the root and check
the terminal flag; formalises "root-to-terminal path spelling the word". -/
def Trie.containsWord : Trie → Word → Bool
  | t, [] => t.term
  | t, c :: cs =>
    match t.find? c with
    | some child => child.containsWord cs
    | none => false

/-! ### Association-list lemmas -/

theorem assoc_append_some {κ ν : Type} [DecidableEq κ] {l₁ : List (κ × ν)} (l₂ : List (κ × ν))
    {k : κ} {v : ν} (h : assoc l₁ k = some v) : assoc (l₁ ++ l₂) k = some v := by
  induction l₁ with
  | nil => simp [assoc] at h
  | cons e rest ih =>
    rw [assoc] at h
    by_cases hk : k = e.1
    · simpa [assoc, hk] using h
    · rw [List.cons_append, assoc]
      simp only [hk, if_false]
      exact ih (by simpa [hk] using h)

theorem assoc_append_none {κ ν : Type} [DecidableEq κ] {l₁ : List (κ × ν)} (l₂ : List (κ × ν))
    {k : κ} (h : assoc l₁ k = none) : assoc (l₁ ++ l₂) k = assoc l₂ k := by
  induction l₁ with
  | nil => simp [assoc]
  | cons e rest ih =>
    rw [assoc] at h
    by_cases hk : k = e.1
    · simp [hk] at h
    · rw [List.cons_append, assoc]
      simp only [hk, if_false]
      exact ih (by simpa [hk] using h)

theorem assoc_isSome_append {κ ν : Type} [DecidableEq κ] {l₁ : List (κ × ν)} (l₂ : List (κ × ν))
    {k : κ} (h : (assoc l₁ k).isSome = true) : (assoc (l₁ ++ l₂) k).isSome = true := by
  rcases Option.isSome_iff_exists.mp h with ⟨v, hv⟩
  rw [assoc_append_some l₂ hv]
  rfl

theorem assoc_singleton_self {κ ν : Type} [DecidableEq κ] (k : κ) (v : ν) :
    assoc [(k, v)] k = some v := by
  simp [assoc]

theorem assoc_mem {κ ν : Type} [DecidableEq κ] {l : List (κ × ν)} {k : κ} {v : ν}
    (h : assoc l k = some v) : (k, v) ∈ l := by
  induction l with
  | nil => simp [assoc] at h
  | cons e rest ih =>
    rw [assoc] at h
    by_cases hk : k = e.1
    · rw [if_pos hk] at h
      have hv : e.2 = v := Option.some.inj h
      subst hk
      subst hv
      exact List.mem_cons_self _ _
    · rw [if_neg hk] at h
      exact List.mem_cons_of_mem _ (ih h)

/-- Fold preservation: a predicate stable under each step is stable under the
whole fold. -/
theorem foldl_preserve {α β : Type} {P : β → Prop} {f : β → α → β} :
    ∀ {l : List α}, (∀ b a, a ∈ l → P b → P (f b a)) → ∀ b, P b → P (l.foldl f b)
  | [], _, _, hb => hb
  | a :: l, h, b, hb =>
    foldl_preserve (fun b' a' ha' => h b' a' (List.mem_cons_of_mem _ ha'))
      (f b a) (h b a (List.mem_cons_self a l) hb)

/-! ### Adjacency -/

/-- 8-adjacency on the grid: distinct cells whose coordinates differ by at
most one in each axis. -/
def eightAdj (a b : Pos) : Prop :=
  a ≠ b ∧ ((a.1 : Int) - (b.1 : Int)).natAbs ≤ 1 ∧ ((a.2 : Int) - (b.2 : Int)).natAbs ≤ 1

theorem mem_get_neighbors {row col : Nat} {q : Pos} (h : q ∈ get_neighbors row col 4 4) :
    eightAdj (row, col) q ∧ q.1 < 4 ∧ q.2 < 4 := by
  simp only [get_neighbors, List.mem_flatMap, List.mem_filterMap] at h
  rcases h with ⟨dr, hdr, dc, hdc, hq⟩
  split at hq
  case isFalse => simp at hq
  case isTrue hcond =>
    obtain ⟨hne, hr0, hr4, hc0, hc4⟩ := hcond
    cases hq
    have hdr' : dr = -1 ∨ dr = 0 ∨ dr = 1 := by simpa using hdr
    have hdc' : dc = -1 ∨ dc = 0 ∨ dc = 1 := by simpa using hdc
    have hne' : ¬(dr = 0 ∧ dc = 0) := hne
    refine ⟨⟨?_, ?_, ?_⟩, ?_, ?_⟩
    · intro he
      rw [Prod.ext_iff] at he
      obtain ⟨h1, h2⟩ := he
      simp only [] at h1 h2
      rcases hdr' with rfl | rfl | rfl <;> rcases hdc' with rfl | rfl | rfl <;>
        first
          | exact hne' ⟨rfl, rfl⟩
          | omega
    · simp only []
      rcases hdr' with rfl | rfl | rfl <;> omega
    · simp only []
      rcases hdc' with rfl | rfl | rfl <;> omega
    · simp only []
      omega
    · simp only []
      omega

/-! ### DFS invariants -/

/-- A recorded entry is valid for the board: the path spells the word, is a
simple path, and consecutive cells are 8-adjacent. -/
def ValidEntry (board : Board) (w : Word) (p : List Pos) : Prop :=
  p.map (fun q => getCell board q) = w ∧ p.Nodup ∧ p.Chain' eightAdj

/-- Invariant tying the mutable search state of a dfs call together:
`visited` holds exactly the path's cells, the accumulated word matches the
letters along the path, the path is simple and 8-connected, the cell about
to be processed is unvisited and (if the path is nonempty) adjacent to the
path's last cell. -/
def FrameOk (board : Board) (row col : Nat) (visited : List Pos) (word : Word)
    (path : List Pos) : Prop :=
  (∀ x : Pos, x ∈ visited ↔ x ∈ path) ∧
  path.map (fun q => getCell board q) = word ∧
  path.Nodup ∧
  path.Chain' eightAdj ∧
  (row, col) ∉ visited ∧
  ∀ q, path.getLast? = some q → (row, col) ∈ get_neighbors q.1 q.2 4 4

theorem frameOk_extend {board : Board} {row col : Nat} {visited : List Pos} {word : Word}
    {path : List Pos} (h : FrameOk board row col visited word path) {p : Pos}
    (hp : p ∈ get_neighbors row col 4 4) (hpv : p ∉ (row, col) :: visited) :
    FrameOk board p.1 p.2 ((row, col) :: visited)
      (word ++ [getCell board (row, col)]) (path ++ [(row, col)]) := by
  obtain ⟨hvis, hmap, hnd, hch, hrc, hlast⟩ := h
  have hrcp : (row, col) ∉ path := fun hm => hrc ((hvis _).mpr hm)
  refine ⟨?_, ?_, ?_, ?_, ?_, ?_⟩
  · intro x
    simp only [List.mem_cons, List.mem_append, List.mem_singleton, hvis x]
    tauto
  · simp [hmap]
  · rw [List.nodup_append]
    refine ⟨hnd, List.nodup_singleton _, ?_⟩
    intro a ha hb
    rw [List.mem_singleton] at hb
    subst hb
    exact hrcp ha
  · rw [List.chain'_append]
    refine ⟨hch, List.chain'_singleton _, ?_⟩
    intro x hx y hy
    simp only [List.head?_cons, Option.mem_def, Option.some.injEq] at hy
    subst hy
    exact (mem_get_neighbors (hlast x hx)).1
  · exact hpv
  · intro q hq
    rw [List.getLast?_concat] at hq
    cases hq
    simpa using hp

/-- The generic preservation principle over `dfs`: any accumulator predicate
stable under `recordWord` on valid entries is preserved by the search, given
a well-formed frame. -/
theorem dfs_preserve (board : Board) (P : DfsAcc → Prop)
    (hrec : ∀ (w : Word) (p : List Pos) (acc : DfsAcc),
      ValidEntry board w p → P acc → P (recordWord w p acc)) :
    ∀ (fuel : Nat) (row col : Nat) (node : Trie) (visited : List Pos) (word : Word)
      (path : List Pos) (acc : DfsAcc),
      FrameOk board row col visited word path → P acc →
      P (dfs fuel row col board node visited word path acc) := by
  intro fuel
  induction fuel with
  | zero => intro _ _ _ _ _ _ acc _ hP; exact hP
  | succ fuel ih =>
    intro row col node visited word path acc hframe hP
    rw [dfs]
    cases hfind : (node.find? (getCell board (row, col))) with
    | none => exact hP
    | some next =>
      simp only []
      by_cases hfal : next.falsy
      · simp only [hfal, if_true]
        exact hP
      · simp only [hfal, if_false]
        have hentry : ValidEntry board (word ++ [getCell board (row, col)])
            (path ++ [(row, col)]) := by
          obtain ⟨hvis, hmap, hnd, hch, hrc, hlast⟩ := hframe
          have hrcp : (row, col) ∉ path := fun hm => hrc ((hvis _).mpr hm)
          refine ⟨by simp [hmap], ?_, ?_⟩
          · rw [List.nodup_append]
            refine ⟨hnd, List.nodup_singleton _, ?_⟩
            intro a ha hb
            rw [List.mem_singleton] at hb
            subst hb
            exact hrcp ha
          · rw [List.chain'_append]
            refine ⟨hch, List.chain'_singleton _, ?_⟩
            intro x hx y hy
            simp only [List.head?_cons, Option.mem_def, Option.some.injEq] at hy
            subst hy
            exact (mem_get_neighbors (hlast x hx)).1
        have hP' : P (if next.term ∧ 3 ≤ (word ++ [getCell board (row, col)]).length then
            recordWord (word ++ [getCell board (row, col)]) (path ++ [(row, col)]) acc
            else acc) := by
          split
          · exact hrec _ _ _ hentry hP
          · exact hP
        refine foldl_preserve (fun a p hp hPa => ?_) _ hP'
        by_cases hpv : p ∈ (row, col) :: visited
        · simp only [hpv, if_true]
          exact hPa
        · simp only [hpv, if_false]
          exact ih p.1 p.2 next ((row, col) :: visited) _ _ a
            (frameOk_extend hframe hp hpv) hPa

/-- Preservation without any frame assumption, for predicates stable under
every `recordWord`. -/
theorem dfs_preserve_any (P : DfsAcc → Prop)
    (hrec : ∀ (w : Word) (p : List Pos) (acc : DfsAcc), P acc → P (recordWord w p acc)) :
    ∀ (fuel : Nat) (row col : Nat) (board : Board) (node : Trie) (visited : List Pos)
      (word : Word) (path : List Pos) (acc : DfsAcc),
      P acc → P (dfs fuel row col board node visited word path acc) := by
  intro fuel
  induction fuel with
  | zero => intro _ _ _ _ _ _ _ acc hP; exact hP
  | succ fuel ih =>
    intro row col board node visited word path acc hP
    rw [dfs]
    cases hfind : (node.find? (getCell board (row, col))) with
    | none => exact hP
    | some next =>
      simp only []
      by_cases hfal : next.falsy
      · simp only [hfal, if_true]
        exact hP
      · simp only [hfal, if_false]
        have hP' : P (if next.term ∧ 3 ≤ (word ++ [getCell board (row, col)]).length then
            recordWord (word ++ [getCell board (row, col)]) (path ++ [(row, col)]) acc
            else acc) := by
          split
          · exact hrec _ _ _ hP
          · exact hP
        refine foldl_preserve (fun a p hp hPa => ?_) _ hP'
        by_cases hpv : p ∈ (row, col) :: visited
        · simp only [hpv, if_true]
          exact hPa
        · simp only [hpv, if_false]
          exact ih p.1 p.2 board next ((row, col) :: visited) _ _ a hPa

/-- Well-formedness of the accumulator: every recorded path is valid, the
result set has no duplicates, and every result word has a recorded path. -/
def AccOk (board : Board) (acc : DfsAcc) : Prop :=
  (∀ (w : Word) (p : List Pos), (w, p) ∈ acc.paths → ValidEntry board w p) ∧
  acc.results.Nodup ∧
  ∀ w ∈ acc.results, (assoc acc.paths w).isSome = true

theorem recordWord_accOk {board : Board} {w : Word} {p : List Pos} {acc : DfsAcc}
    (hv : ValidEntry board w p) (h : AccOk board acc) : AccOk board (recordWord w p acc) := by
  obtain ⟨hval, hnd, hlink⟩ := h
  unfold recordWord
  refine ⟨?_, ?_, ?_⟩
  · intro w' p' hm
    simp only [] at hm
    by_cases hs : (assoc acc.paths w).isSome = true
    · rw [if_pos hs] at hm
      exact hval _ _ hm
    · rw [if_neg hs] at hm
      rcases List.mem_append.mp hm with hm | hm
      · exact hval _ _ hm
      · rw [List.mem_singleton] at hm
        cases hm
        exact hv
  · simp only [insertResult]
    split
    · exact hnd
    · rw [List.nodup_append]
      refine ⟨hnd, List.nodup_singleton _, ?_⟩
      intro a ha hb
      rw [List.mem_singleton] at hb
      subst hb
      simp_all
  · intro w' hw'
    simp only [insertResult] at hw'
    have hmem : w' ∈ acc.results ∨ w' = w := by
      split at hw'
      · exact Or.inl hw'
      · rcases List.mem_append.mp hw' with hm | hm
        · exact Or.inl hm
        · exact Or.inr (List.mem_singleton.mp hm)
    by_cases hs : (assoc acc.paths w).isSome = true
    · rw [if_pos hs]
      rcases hmem with hm | rfl
      · exact hlink _ hm
      · exact hs
    · rw [if_neg hs]
      rcases hmem with hm | rfl
      · exact assoc_isSome_append _ (hlink _ hm)
      · rcases hnone : assoc acc.paths w' with _ | v
        · rw [assoc_append_none _ hnone, assoc_singleton_self]
          rfl
        · exact absurd (by rw [hnone]; rfl) hs

theorem frameOk_nil (board : Board) (row col : Nat) : FrameOk board row col [] [] [] :=
  ⟨by simp, rfl, List.nodup_nil, List.chain'_nil, by simp, by simp⟩

theorem solveAcc_accOk (board : Board) (trie : Trie) : AccOk board (solveAcc board trie) := by
  unfold solveAcc
  refine foldl_preserve (fun acc p _ hacc => ?_) _ ?_
  · exact dfs_preserve board (AccOk board)
      (fun w p' acc' hv h => recordWord_accOk hv h)
      _ p.1 p.2 _ [] [] [] acc (frameOk_nil board p.1 p.2) hacc
  · exact ⟨by intro w p h; simp at h, List.nodup_nil, by intro w h; simp at h⟩

/-! ### Word ordering -/

instance : IsTrans Word wordLE :=
  ⟨by
    intro a b c hab hbc
    rcases hab with h1 | ⟨h1, h2⟩ <;> rcases hbc with h3 | ⟨h3, h4⟩
    · exact Or.inl (h3.trans h1)
    · exact Or.inl (h3 ▸ h1)
    · exact Or.inl (h1 ▸ h3)
    · exact Or.inr ⟨h1.trans h3, h2.trans h4⟩⟩

instance : IsTotal Word wordLE :=
  ⟨by
    intro a b
    rcases lt_trichotomy a.length b.length with h | h | h
    · exact Or.inr (Or.inl h)
    · rcases le_total a b with hle | hle
      · exact Or.inl (Or.inr ⟨h, hle⟩)
      · exact Or.inr (Or.inr ⟨h.symm, hle⟩)
    · exact Or.inl (Or.inl h)⟩

instance : IsAntisymm Word wordLE :=
  ⟨by
    intro a b hab hba
    rcases hab with h1 | ⟨h1, h2⟩ <;> rcases hba with h3 | ⟨h3, h4⟩
    · exact absurd (h1.trans h3) (lt_irrefl _)
    · exact absurd h1 (by omega)
    · exact absurd h3 (by omega)
    · exact le_antisymm h2 h4⟩

/-- The strict version of the ranking order: longer word first, ties in
strictly ascending lexicographic order. -/
def wordLT (a b : Word) : Prop :=
  b.length < a.length ∨ (a.length = b.length ∧ a < b)

theorem pairwise_conj {α : Type} {R S : α → α → Prop} :
    ∀ {l : List α}, l.Pairwise R → l.Pairwise S →
      l.Pairwise fun a b => R a b ∧ S a b := by
  intro l hR hS
  induction l with
  | nil => exact List.Pairwise.nil
  | cons a l ih =>
    cases hR with
    | cons haR hlR =>
      cases hS with
      | cons haS hlS =>
        exact List.Pairwise.cons (fun b hb => ⟨haR b hb, haS b hb⟩) (ih hlR hlS)

theorem recordWord_assoc_mono {w0 : Word} {p0 : List Pos} {w : Word} {p : List Pos}
    {acc : DfsAcc} (h : assoc acc.paths w0 = some p0) :
    assoc (recordWord w p acc).paths w0 = some p0 := by
  unfold recordWord
  simp only []
  split
  · exact h
  · exact assoc_append_some _ h

/-- The word list of the output is exactly the sorted result set truncated
to the limit. -/
theorem find_words_map_fst (board : Board) (trie : Trie) :
    (find_words board trie).map Prod.fst
      = ((solveAcc board trie).results.insertionSort wordLE).take SOLVER_NUMWORDS_LIMIT := by
  simp only [find_words, find_words_enum, id_eq, List.map_map]
  simp [Function.comp_def]

theorem sorted_results_nodup (board : Board) (trie : Trie) :
    ((solveAcc board trie).results.insertionSort wordLE).Nodup :=
  ((List.perm_insertionSort wordLE _).nodup_iff).mpr (solveAcc_accOk board trie).2.1

/-- C1: every entry in the list returned by `find_words` is a (word, path)
pair such that the board letters along the path spell exactly the word, no
cell occurs twice in the path, and consecutive path cells are 8-adjacent. -/
theorem find_words_valid_c1 : ∀ (board : Board) (trie : Trie) (w : Word) (p : List Pos),
    (w, p) ∈ find_words board trie →
    p.map (fun q => getCell board q) = w ∧ p.Nodup ∧ p.Chain' eightAdj := by
  intro board trie w p hm
  have hacc := solveAcc_accOk board trie
  simp only [find_words, find_words_enum, id_eq, List.mem_map] at hm
  rcases hm with ⟨w', hw', heq⟩
  cases heq
  have hwres : w ∈ (solveAcc board trie).results := by
    have h1 := List.take_subset _ _ hw'
    rwa [List.mem_insertionSort] at h1
  have hsome := hacc.2.2 w hwres
  rcases Option.isSome_iff_exists.mp hsome with ⟨p0, hp0⟩
  rw [hp0]
  simp only [Option.getD_some]
  exact hacc.1 w p0 (assoc_mem hp0)

/-- The path of the word cat on `boardCat`. -/
def catPath : List Pos := [(0, 0), (0, 1), (0, 2)]

/-- Witness for C1 on a concrete board and trie containing the word cat. -/
theorem find_words_valid_c1_witness :
    (['c','a','t'], catPath) ∈ find_words boardCat trieCat ∧
    (catPath.map (fun q => getCell boardCat q) = ['c','a','t'] ∧
      catPath.Nodup ∧ catPath.Chain' eightAdj) := by
  constructor
  · decide
  · exact find_words_valid_c1 boardCat trieCat ['c','a','t'] catPath (by decide)

/-- C4: the output is ranked longer-word-first with ties in ascending
lexicographic order, and it is the first at-most-500 entries of that total
order over the result set. -/
theorem ranked_output_c4 : ∀ (board : Board) (trie : Trie),
    ((find_words board trie).map Prod.fst).Pairwise wordLT ∧
    (find_words board trie).length ≤ SOLVER_NUMWORDS_LIMIT ∧
    (find_words board trie).map Prod.fst
      = ((solveAcc board trie).results.insertionSort wordLE).take SOLVER_NUMWORDS_LIMIT := by
  intro board trie
  have hmapfst := find_words_map_fst board trie
  have hsorted := List.sorted_insertionSort wordLE (solveAcc board trie).results
  have hnd := sorted_results_nodup board trie
  have hpair : ((solveAcc board trie).results.insertionSort wordLE).Pairwise wordLT := by
    refine (pairwise_conj hsorted hnd).imp ?_
    rintro a b ⟨hle, hne⟩
    rcases hle with h | ⟨hlen, hle'⟩
    · exact Or.inl h
    · exact Or.inr ⟨hlen, lt_of_le_of_ne hle' hne⟩
  refine ⟨?_, ?_, hmapfst⟩
  · rw [hmapfst]
    exact hpair.sublist (List.take_sublist _ _)
  · have := congrArg List.length hmapfst
    rw [List.length_map] at this
    rw [this]
    exact List.length_take_le _ _

/-- C5: a word's recorded path, once present, is never replaced by a later
discovery of the same word; and the output has at most one entry per word. -/
theorem first_path_kept_c5 :
    (∀ (fuel row col : Nat) (board : Board) (node : Trie) (visited : List Pos)
       (word : Word) (path : List Pos) (acc : DfsAcc) (w0 : Word) (p0 : List Pos),
       assoc acc.paths w0 = some p0 →
       assoc (dfs fuel row col board node visited word path acc).paths w0 = some p0) ∧
    ∀ (board : Board) (trie : Trie), ((find_words board trie).map Prod.fst).Nodup := by
  constructor
  · intro fuel row col board node visited word path acc w0 p0 h0
    exact dfs_preserve_any (fun acc' => assoc acc'.paths w0 = some p0)
      (fun w p acc' h => recordWord_assoc_mono h) fuel row col board node visited word path acc h0
  · intro board trie
    rw [find_words_map_fst]
    exact (sorted_results_nodup board trie).sublist (List.take_sublist _ _)

/-- Witness for C5: a pre-recorded path survives a full dfs run, and the
concrete output has no duplicate word. -/
theorem first_path_kept_c5_witness :
    assoc (dfs 17 0 0 boardCat (Trie.node false trieCat.children) [] [] []
        ⟨[], [(['x'], [(3, 3)])]⟩).paths ['x'] = some [(3, 3)] ∧
    ((find_words boardCat trieCat).map Prod.fst).Nodup :=
  ⟨first_path_kept_c5.1 17 0 0 boardCat (Trie.node false trieCat.children) [] [] []
      ⟨[], [(['x'], [(3, 3)])]⟩ ['x'] [(3, 3)] (by decide),
    first_path_kept_c5.2 boardCat trieCat⟩

/-- C10: the output of `find_words` does not depend on the enumeration order
of the Python result set — any two permutation-respecting enumerations give
identical outputs, words and recorded paths alike. -/
theorem deterministic_c10 : ∀ (board : Board) (trie : Trie)
    (enum1 enum2 : List Word → List Word),
    (∀ l : List Word, (enum1 l).Perm l) → (∀ l : List Word, (enum2 l).Perm l) →
    find_words_enum board trie enum1 = find_words_enum board trie enum2 := by
  intro board trie e1 e2 h1 h2
  unfold find_words_enum
  have hs1 : List.Sorted wordLE ((e1 (solveAcc board trie).results).insertionSort wordLE) :=
    List.sorted_insertionSort _ _
  have hs2 : List.Sorted wordLE ((e2 (solveAcc board trie).results).insertionSort wordLE) :=
    List.sorted_insertionSort _ _
  have hperm : ((e1 (solveAcc board trie).results).insertionSort wordLE).Perm
      ((e2 (solveAcc board trie).results).insertionSort wordLE) :=
    ((List.perm_insertionSort _ _).trans (h1 _)).trans
      ((h2 _).symm.trans (List.perm_insertionSort _ _).symm)
  have hsort := List.eq_of_perm_of_sorted hperm hs1 hs2
  simp only [hsort]

/-- Witness for C10: the identity and reversal enumerations agree on a
concrete board. -/
theorem deterministic_c10_witness :
    find_words_enum boardCat trieCat id = find_words_enum boardCat trieCat List.reverse :=
  deterministic_c10 boardCat trieCat id List.reverse
    (fun l => List.Perm.refl l) (fun l => l.reverse_perm)

/-! ### Movement controller lemmas -/

theorem stepToward_zero (m : Nat) : stepToward m 0 = 0 := by
  simp [stepToward]

theorem stepToward_natAbs_le (m : Nat) (d : Int) : (stepToward m d).natAbs ≤ m := by
  unfold stepToward
  split
  · simp
  · split
    · rw [Int.min_def]
      split <;> omega
    · rw [Int.min_def]
      split <;> omega

theorem stepToward_pos {m : Nat} (hm : 0 < m) {d : Int} (hd : 0 < d) :
    0 < stepToward m d := by
  unfold stepToward
  rw [if_neg (by omega), if_pos hd, Int.min_def]
  split <;> omega

theorem stepToward_neg {m : Nat} (hm : 0 < m) {d : Int} (hd : d < 0) :
    stepToward m d < 0 := by
  unfold stepToward
  rw [if_neg (by omega), if_neg (by omega), Int.min_def]
  split <;> omega

theorem stepToward_ne_zero {m : Nat} (hm : 0 < m) {d : Int} (hd : d ≠ 0) :
    stepToward m d ≠ 0 := by
  rcases lt_trichotomy d 0 with h | h | h
  · exact (stepToward_neg hm h).ne
  · exact absurd h hd
  · exact (stepToward_pos hm h).ne'

theorem stepToward_abs_decrease {m : Nat} (hm : 0 < m) (d : Int) (hd : d ≠ 0) :
    (d - stepToward m d).natAbs < d.natAbs := by
  unfold stepToward
  rw [if_neg hd]
  split
  · rw [Int.min_def]
    split <;> omega
  · rw [Int.min_def]
    split <;> omega

theorem stepToward_abs_le (m : Nat) (d : Int) :
    (d - stepToward m d).natAbs ≤ d.natAbs := by
  unfold stepToward
  split
  · simp
  · split
    · rw [Int.min_def]
      split <;> omega
    · rw [Int.min_def]
      split <;> omega

theorem gotoTrace_stop {m fuel : Nat} {cur tgt : Int × Int}
    (h : tgt.1 - cur.1 = 0 ∧ tgt.2 - cur.2 = 0) :
    gotoTrace m fuel cur tgt = ([], cur) := by
  cases fuel <;> simp [gotoTrace, h]

theorem gotoTrace_go {m fuel : Nat} {cur tgt : Int × Int}
    (h : ¬(tgt.1 - cur.1 = 0 ∧ tgt.2 - cur.2 = 0)) :
    gotoTrace m (fuel + 1) cur tgt =
      ((cur, (stepToward m (tgt.1 - cur.1), stepToward m (tgt.2 - cur.2))) ::
          (gotoTrace m fuel (cur.1 + stepToward m (tgt.1 - cur.1),
            cur.2 + stepToward m (tgt.2 - cur.2)) tgt).1,
        (gotoTrace m fuel (cur.1 + stepToward m (tgt.1 - cur.1),
          cur.2 + stepToward m (tgt.2 - cur.2)) tgt).2) := by
  rw [gotoTrace]
  simp [h]

theorem goto_reaches {m : Nat} (hm : 0 < m) :
    ∀ (fuel : Nat) (cur tgt : Int × Int),
      (tgt.1 - cur.1).natAbs + (tgt.2 - cur.2).natAbs ≤ fuel →
      (gotoTrace m fuel cur tgt).2 = tgt := by
  intro fuel
  induction fuel with
  | zero =>
    intro cur tgt h
    have h1 : tgt.1 - cur.1 = 0 ∧ tgt.2 - cur.2 = 0 := by omega
    rw [gotoTrace_stop h1]
    rcases cur with ⟨cx, cy⟩
    rcases tgt with ⟨tx, ty⟩
    simp only [] at h1 ⊢
    rw [Prod.mk.injEq]
    omega
  | succ fuel ih =>
    intro cur tgt h
    by_cases h0 : tgt.1 - cur.1 = 0 ∧ tgt.2 - cur.2 = 0
    · rw [gotoTrace_stop h0]
      rcases cur with ⟨cx, cy⟩
      rcases tgt with ⟨tx, ty⟩
      simp only [] at h0 ⊢
      rw [Prod.mk.injEq]
      omega
    · rw [gotoTrace_go h0]
      simp only []
      apply ih
      by_cases hdx : tgt.1 - cur.1 = 0
      · have hdy : tgt.2 - cur.2 ≠ 0 := fun hy => h0 ⟨hdx, hy⟩
        have hz : stepToward m (tgt.1 - cur.1) = 0 := by rw [hdx]; exact stepToward_zero m
        have hy2 := stepToward_abs_decrease hm (tgt.2 - cur.2) hdy
        rw [hz]
        simp only []
        omega
      · have hx2 := stepToward_abs_decrease hm (tgt.1 - cur.1) hdx
        have hy2 := stepToward_abs_le m (tgt.2 - cur.2)
        simp only []
        omega

theorem gotoTrace_mem {m : Nat} :
    ∀ (fuel : Nat) (cur tgt : Int × Int) (e : (Int × Int) × (Int × Int)),
      e ∈ (gotoTrace m fuel cur tgt).1 →
      ¬(tgt.1 - e.1.1 = 0 ∧ tgt.2 - e.1.2 = 0) ∧
      e.2.1 = stepToward m (tgt.1 - e.1.1) ∧ e.2.2 = stepToward m (tgt.2 - e.1.2) := by
  intro fuel
  induction fuel with
  | zero =>
    intro cur tgt e he
    simp [gotoTrace] at he
  | succ fuel ih =>
    intro cur tgt e he
    by_cases h : tgt.1 - cur.1 = 0 ∧ tgt.2 - cur.2 = 0
    · rw [gotoTrace_stop h] at he
      simp at he
    · rw [gotoTrace_go h] at he
      rcases List.mem_cons.mp he with rfl | hmem
      · exact ⟨h, rfl, rfl⟩
      · exact ih _ tgt e hmem

/-- C2: with the fixed maximum step 10, every emitted step has per-axis
magnitude at most 10 and the sign of the remaining per-axis delta (zero
exactly when the delta is zero, so both axes are combined whenever both
deltas are nonzero), the loop ends exactly at the target, and from (0,0) to
(250,-40) exactly 25 steps have a nonzero x component and 4 a nonzero y
component. -/
theorem goto_motion_c2 : ∀ (cur tgt : Int × Int) (fuel : Nat),
    (tgt.1 - cur.1).natAbs + (tgt.2 - cur.2).natAbs ≤ fuel →
    (gotoTrace FIXED_DELTA fuel cur tgt).2 = tgt ∧
    (∀ e ∈ (gotoTrace FIXED_DELTA fuel cur tgt).1,
      e.2.1.natAbs ≤ 10 ∧ e.2.2.natAbs ≤ 10 ∧
      (0 < tgt.1 - e.1.1 → 0 < e.2.1) ∧ (tgt.1 - e.1.1 < 0 → e.2.1 < 0) ∧
      (tgt.1 - e.1.1 = 0 → e.2.1 = 0) ∧
      (0 < tgt.2 - e.1.2 → 0 < e.2.2) ∧ (tgt.2 - e.1.2 < 0 → e.2.2 < 0) ∧
      (tgt.2 - e.1.2 = 0 → e.2.2 = 0) ∧
      (tgt.1 - e.1.1 ≠ 0 → tgt.2 - e.1.2 ≠ 0 → e.2.1 ≠ 0 ∧ e.2.2 ≠ 0)) ∧
    ((gotoTrace FIXED_DELTA 300 ((0 : Int), (0 : Int)) (250, -40)).1.filter
        (fun e => !(e.2.1 == 0))).length = 25 ∧
    ((gotoTrace FIXED_DELTA 300 ((0 : Int), (0 : Int)) (250, -40)).1.filter
        (fun e => !(e.2.2 == 0))).length = 4 ∧
    (gotoTrace FIXED_DELTA 300 ((0 : Int), (0 : Int)) (250, -40)).2 = (250, -40) := by
  have hm : 0 < FIXED_DELTA := by decide
  intro cur tgt fuel h
  refine ⟨goto_reaches hm fuel cur tgt h, ?_, by decide, by decide, by decide⟩
  intro e he
  obtain ⟨hne, hx, hy⟩ := gotoTrace_mem fuel cur tgt e he
  rw [hx, hy]
  refine ⟨stepToward_natAbs_le _ _, stepToward_natAbs_le _ _,
    fun hp => stepToward_pos hm hp, fun hn => stepToward_neg hm hn,
    fun hz => by rw [hz]; exact stepToward_zero _,
    fun hp => stepToward_pos hm hp, fun hn => stepToward_neg hm hn,
    fun hz => by rw [hz]; exact stepToward_zero _,
    fun hx0 hy0 => ⟨stepToward_ne_zero hm hx0, stepToward_ne_zero hm hy0⟩⟩

/-- Witness for C2: the concrete run from (0,0) to (250,-40). -/
theorem goto_motion_c2_witness :
    (gotoTrace FIXED_DELTA 300 ((0 : Int), (0 : Int)) (250, -40)).2 = (250, -40) :=
  (goto_motion_c2 ((0 : Int), (0 : Int)) (250, -40) 300 (by decide)).1

/-- C8: for every target and every maximum step size strictly greater than
zero, the goto loop terminates — any fuel at least the sum of the initial
per-axis distances drives the tracked position exactly to the target — and
each iteration strictly decreases the absolute value of every nonzero
per-axis delta while keeping a zero delta at zero. -/
theorem goto_terminates_c8 : ∀ (m : Nat), 0 < m →
    (∀ (cur tgt : Int × Int) (fuel : Nat),
        (tgt.1 - cur.1).natAbs + (tgt.2 - cur.2).natAbs ≤ fuel →
        (gotoTrace m fuel cur tgt).2 = tgt) ∧
    (∀ d : Int, d ≠ 0 → (d - stepToward m d).natAbs < d.natAbs) ∧
    (∀ d : Int, (d - stepToward m d).natAbs ≤ d.natAbs) := by
  intro m hm
  exact ⟨fun cur tgt fuel h => goto_reaches hm fuel cur tgt h,
    fun d hd => stepToward_abs_decrease hm d hd,
    fun d => stepToward_abs_le m d⟩

/-- Witness for C8 at maximum step 3. -/
theorem goto_terminates_c8_witness :
    (gotoTrace 3 10 ((0 : Int), (0 : Int)) (5, -4)).2 = (5, -4) ∧
    ((7 : Int) - stepToward 3 7).natAbs < (7 : Int).natAbs :=
  ⟨(goto_terminates_c8 3 (by decide)).1 ((0 : Int), (0 : Int)) (5, -4) 10 (by decide),
    (goto_terminates_c8 3 (by decide)).2.1 7 (by decide)⟩

/-! ### Coordinate mapper claims -/

/-- C3 counterexample: with corners (0,0) and (30,30) the source maps cell
(row,col) = (1,2) to (20,10), not (10,20) as claimed; and with corners
(0,0),(2,2) the source truncates cell (0,1) to x = 0 where rounding to the
nearest integer, as claimed, would give x = 1. -/
theorem grid_interp_c3_counterexample :
    assoc (get_grid_coordinates (0, 0) (30, 30)) (1, 2) = some (20, 10) ∧
    ((20, 10) : Int × Int) ≠ (10, 20) ∧
    assoc (get_grid_coordinates (0, 0) (2, 2)) (0, 1) = some (0, 0) ∧
    spec_cell_coord_round (0, 0) (2, 2) 0 1 = (1, 0) ∧
    (0 : Int) ≠ (1 : Int) := by
  decide

/-- C3 amended: the mapped coordinate of cell (row, col) is the per-axis
linear interpolation with step (bottom_right − top_left)/3, truncated toward
zero (Python `int`), and clamped to [0, 32767] when delivered by `send_cmd`;
with corners (0,0) and (30,30), cell (0,0) maps to (0,0), cell (3,3) to
(30,30), and cell (1,2) to (20,10). -/
theorem grid_interp_c3_amended :
    (∀ (tl br : Int × Int) (row col : Nat), row < 4 → col < 4 →
        (assoc (get_grid_coordinates tl br) (row, col)).map
            (fun p => send_cmd_pos p.1 p.2)
          = some (spec_cell_coord_trunc tl br row col)) ∧
    assoc (get_grid_coordinates (0, 0) (30, 30)) (0, 0) = some (0, 0) ∧
    assoc (get_grid_coordinates (0, 0) (30, 30)) (3, 3) = some (30, 30) ∧
    assoc (get_grid_coordinates (0, 0) (30, 30)) (1, 2) = some (20, 10) := by
  refine ⟨?_, by decide, by decide, by decide⟩
  intro tl br row col hr hc
  interval_cases row <;> interval_cases col <;> rfl

/-- Witness for C3 on the configured corners of the source. -/
theorem grid_interp_c3_witness :
    (assoc (get_grid_coordinates (7500, 15750) (25000, 24000)) (1, 2)).map
        (fun p => send_cmd_pos p.1 p.2)
      = some (spec_cell_coord_trunc (7500, 15750) (25000, 24000) 1 2) :=
  grid_interp_c3_amended.1 (7500, 15750) (25000, 24000) 1 2 (by decide) (by decide)

/-! ### Transport failure claims -/

/-- C6 counterexample: a failed release delivery yields the same logged
outcome as a failed mid-drag delivery, the loop is not aborted, and no
distinguished condition is produced. -/
theorem release_failure_c6_counterexample :
    runGesture (gesturePlan 1 1) [true, true, true, false] =
      [(StepKind.moveStep, SendOutcome.delivered),
        (StepKind.pressStep, SendOutcome.delivered),
        (StepKind.dragStep, SendOutcome.delivered),
        (StepKind.releaseStep, SendOutcome.failedLogged)] ∧
    runGesture (gesturePlan 1 1) [true, true, false, true] =
      [(StepKind.moveStep, SendOutcome.delivered),
        (StepKind.pressStep, SendOutcome.delivered),
        (StepKind.dragStep, SendOutcome.failedLogged),
        (StepKind.releaseStep, SendOutcome.delivered)] ∧
    send_current false = SendOutcome.failedLogged := by
  decide

/-- C6 amended: every delivery failure, the button release included, is
caught inside `send_current`, logged, and the gesture sequence continues
through all remaining steps; no distinguished stuck-button condition reaches
the caller. -/
theorem transport_failures_logged_c6 : ∀ (plan : List StepKind) (oracle : List Bool),
    oracle.length = plan.length →
    (runGesture plan oracle).length = plan.length ∧
    (runGesture plan oracle).map Prod.fst = plan ∧
    ∀ e ∈ runGesture plan oracle,
      e.2 = SendOutcome.delivered ∨ e.2 = SendOutcome.failedLogged := by
  intro plan oracle h
  refine ⟨?_, ?_, ?_⟩
  · rw [runGesture, List.length_map, List.length_zip, h, Nat.min_self]
  · rw [runGesture, List.map_map]
    have hcomp : (Prod.fst ∘ fun ko : StepKind × Bool => (ko.1, send_current ko.2))
        = Prod.fst := rfl
    rw [hcomp]
    exact List.map_fst_zip _ _ (le_of_eq h.symm)
  · intro e _
    cases he : e.2
    · exact Or.inl rfl
    · exact Or.inr rfl

/-- Witness for C6 on a concrete plan and failure pattern. -/
theorem transport_failures_logged_c6_witness :
    (runGesture (gesturePlan 1 2) [true, false, true, true, false]).length
        = (gesturePlan 1 2).length ∧
    (runGesture (gesturePlan 1 2) [true, false, true, true, false]).map Prod.fst
        = gesturePlan 1 2 ∧
    ∀ e ∈ runGesture (gesturePlan 1 2) [true, false, true, true, false],
      e.2 = SendOutcome.delivered ∨ e.2 = SendOutcome.failedLogged :=
  transport_failures_logged_c6 (gesturePlan 1 2) [true, false, true, true, false] (by decide)

/-! ### Calibration table claims -/

/-- C7 counterexample: a table missing indices loads without any error and
the failure surfaces only during gesturing, after the hover and press were
already attempted. -/
theorem table_lookup_c7_counterexample :
    load_mouse_positions [(0, 100, 100)] = [(0, (100, 100))] ∧
    runWordGesture (load_mouse_positions [(0, 100, 100)]) [(0, 0), (1, 1)] =
      ([GestureEvent.moveTo (100, 100), GestureEvent.press], true) := by
  decide

theorem dragEvents_crash {mp : List (Nat × (Int × Int))} :
    ∀ (coords : List Pos) (c : Pos), c ∈ coords →
      convert_coord_to_mouse_pos c mp = none → (dragEvents mp coords).2 = true := by
  intro coords
  induction coords with
  | nil =>
    intro c hc
    simp at hc
  | cons c0 cs ih =>
    intro c hc hnone
    rcases List.mem_cons.mp hc with rfl | hmem
    · simp only [dragEvents, hnone]
    · simp only [dragEvents]
      cases h0 : convert_coord_to_mouse_pos c0 mp
      · rfl
      · simp only []
        exact ih c hmem hnone

/-- C7 amended: an incomplete table is not rejected at load time — the
missing-index failure surfaces at the first gesture step that uses the
missing cell — while with all 16 indices present the lookup for (row, col)
returns exactly the table entry at index row * 4 + col. -/
theorem table_lookup_c7_amended :
    (∀ mp : List (Nat × (Int × Int)),
        (∀ i : Nat, i < 16 → (assoc mp i).isSome = true) →
        ∀ row col : Nat, row < 4 → col < 4 →
          convert_coord_to_mouse_pos (row, col) mp = assoc mp (row * 4 + col) ∧
          (assoc mp (row * 4 + col)).isSome = true) ∧
    (∀ (mp : List (Nat × (Int × Int))) (coords : List Pos) (c : Pos),
        c ∈ coords → convert_coord_to_mouse_pos c mp = none →
        (runWordGesture mp coords).2 = true) := by
  constructor
  · intro mp hmp row col hr hc
    exact ⟨rfl, hmp _ (by omega)⟩
  · intro mp coords c hc hnone
    cases coords with
    | nil => rfl
    | cons c0 rest =>
      rcases List.mem_cons.mp hc with rfl | hmem
      · simp only [runWordGesture, hnone]
      · simp only [runWordGesture]
        cases h0 : convert_coord_to_mouse_pos c0 mp
        · rfl
        · simp only []
          rw [dragEvents_crash rest c hmem hnone]
          rfl

/-- Witness for C7: the complete table answers by index, and a run against
an incomplete table crashes at the point of use. -/
theorem table_lookup_c7_witness :
    (convert_coord_to_mouse_pos (2, 3) fullTable = assoc fullTable (2 * 4 + 3) ∧
      (assoc fullTable (2 * 4 + 3)).isSome = true) ∧
    (runWordGesture (load_mouse_positions [(0, 100, 100)]) [(0, 0), (1, 1)]).2 = true :=
  ⟨table_lookup_c7_amended.1 fullTable (by decide) 2 3 (by decide) (by decide),
    table_lookup_c7_amended.2 (load_mouse_positions [(0, 100, 100)]) [(0, 0), (1, 1)] (1, 1)
      (by decide) (by decide)⟩

/-! ### Trie builder lemmas -/

theorem childLookup_append_some {l₁ : List (Char × Trie)} (l₂ : List (Char × Trie))
    {c : Char} {t : Trie} (h : childLookup l₁ c = some t) :
    childLookup (l₁ ++ l₂) c = some t := by
  induction l₁ with
  | nil => simp [childLookup] at h
  | cons e rest ih =>
    rcases e with ⟨c', t'⟩
    rw [childLookup] at h
    by_cases hc : c = c'
    · rw [if_pos hc] at h
      rw [List.cons_append, childLookup, if_pos hc]
      exact h
    · rw [if_neg hc] at h
      rw [List.cons_append, childLookup, if_neg hc]
      exact ih h

theorem childLookup_append_none {l₁ : List (Char × Trie)} (l₂ : List (Char × Trie))
    {c : Char} (h : childLookup l₁ c = none) :
    childLookup (l₁ ++ l₂) c = childLookup l₂ c := by
  induction l₁ with
  | nil => simp [childLookup]
  | cons e rest ih =>
    rcases e with ⟨c', t'⟩
    rw [childLookup] at h
    by_cases hc : c = c'
    · rw [if_pos hc] at h
      exact absurd h (by simp)
    · rw [if_neg hc] at h
      rw [List.cons_append, childLookup, if_neg hc]
      exact ih h

theorem childLookup_replace_self {l : List (Char × Trie)} {c : Char} {t0 : Trie}
    (h : childLookup l c = some t0) (t : Trie) :
    childLookup (replaceChild l c t) c = some t := by
  induction l with
  | nil => simp [childLookup] at h
  | cons e rest ih =>
    rcases e with ⟨c', t'⟩
    rw [childLookup] at h
    rw [replaceChild]
    by_cases hc : c' = c
    · rw [if_pos hc, childLookup, if_pos hc.symm]
    · rw [if_neg hc, childLookup, if_neg (fun he => hc he.symm)]
      rw [if_neg (fun he => hc he.symm)] at h
      exact ih h

theorem childLookup_replace_ne {l : List (Char × Trie)} {c c' : Char} (h : c' ≠ c) (t : Trie) :
    childLookup (replaceChild l c t) c' = childLookup l c' := by
  induction l with
  | nil => simp [replaceChild]
  | cons e rest ih =>
    rcases e with ⟨c0, t0⟩
    rw [replaceChild]
    by_cases hc : c0 = c
    · rw [if_pos hc, childLookup, childLookup]
      rw [if_neg (fun he : c' = c0 => h (he.trans hc)), if_neg (fun he : c' = c0 => h (he.trans hc))]
    · rw [if_neg hc, childLookup, childLookup]
      by_cases he : c' = c0
      · rw [if_pos he, if_pos he]
      · rw [if_neg he, if_neg he]
        exact ih

theorem replaceChild_self {l : List (Char × Trie)} {c : Char} {t : Trie}
    (h : childLookup l c = some t) : replaceChild l c t = l := by
  induction l with
  | nil => rfl
  | cons e rest ih =>
    rcases e with ⟨c', t'⟩
    rw [childLookup] at h
    rw [replaceChild]
    by_cases hc : c = c'
    · rw [if_pos hc] at h
      rw [if_pos hc.symm]
      cases h
      rfl
    · rw [if_neg hc] at h
      rw [if_neg (fun he => hc he.symm)]
      rw [ih h]

theorem replaceChild_replaceChild (l : List (Char × Trie)) (c : Char) (t₁ t₂ : Trie) :
    replaceChild (replaceChild l c t₁) c t₂ = replaceChild l c t₂ := by
  induction l with
  | nil => rfl
  | cons e rest ih =>
    rcases e with ⟨c', t'⟩
    rw [replaceChild]
    by_cases hc : c' = c
    · rw [if_pos hc, replaceChild, if_pos hc, replaceChild, if_pos hc]
    · rw [if_neg hc, replaceChild, if_neg hc, replaceChild, if_neg hc, ih]

theorem containsWord_empty (w : Word) : (Trie.node false []).containsWord w = false := by
  cases w <;> rfl

theorem containsWord_insert (v : Word) : ∀ (t : Trie) (w : Word),
    (trieInsert t v).containsWord w = true ↔ w = v ∨ t.containsWord w = true := by
  induction v with
  | nil =>
    intro t w
    rcases t with ⟨term, ch⟩
    cases w with
    | nil => simp [trieInsert, Trie.containsWord, Trie.term]
    | cons c cs =>
      simp only [trieInsert, Trie.containsWord, Trie.find?, Trie.children]
      simp
  | cons a as ih =>
    intro t w
    rcases t with ⟨term, ch⟩
    rw [trieInsert]
    cases hl : childLookup ch a with
    | some child =>
      simp only []
      cases w with
      | nil => simp [Trie.containsWord, Trie.term]
      | cons c cs =>
        rw [Trie.containsWord, Trie.containsWord]
        simp only [Trie.find?, Trie.children]
        by_cases hc : c = a
        · subst hc
          rw [childLookup_replace_self hl, hl]
          rw [ih child cs]
          simp [List.cons.injEq]
        · rw [childLookup_replace_ne hc]
          have hne : ¬(c :: cs = a :: as) := by
            intro he
            exact hc (List.head_eq_of_cons_eq he)
          simp only [hne, false_or]
    | none =>
      simp only []
      cases w with
      | nil => simp [Trie.containsWord, Trie.term]
      | cons c cs =>
        rw [Trie.containsWord, Trie.containsWord]
        simp only [Trie.find?, Trie.children]
        by_cases hc : c = a
        · subst hc
          rw [childLookup_append_none _ hl, hl]
          rw [childLookup, if_pos rfl]
          rw [ih (Trie.node false []) cs]
          rw [containsWord_empty]
          simp [List.cons.injEq]
        · have hl2 : childLookup (ch ++ [(a, trieInsert (Trie.node false []) as)]) c
              = childLookup ch c := by
            cases h2 : childLookup ch c with
            | some t2 => exact childLookup_append_some _ h2
            | none =>
              rw [childLookup_append_none _ h2, childLookup, if_neg hc]
              rfl
          rw [hl2]
          have hne : ¬(c :: cs = a :: as) := by
            intro he
            exact hc (List.head_eq_of_cons_eq he)
          simp only [hne, false_or]

theorem containsWord_build_aux : ∀ (ws : List Word) (t : Trie) (w : Word),
    ((ws.foldl (fun t w => if wordOk w then trieInsert t w else t) t).containsWord w = true)
      ↔ ((w ∈ ws ∧ wordOk w = true) ∨ t.containsWord w = true) := by
  intro ws
  induction ws with
  | nil => simp
  | cons v vs ih =>
    intro t w
    rw [List.foldl_cons]
    by_cases hok : wordOk v = true
    · rw [if_pos hok, ih, containsWord_insert]
      constructor
      · rintro (⟨hm, hw⟩ | rfl | hc)
        · exact Or.inl ⟨List.mem_cons_of_mem _ hm, hw⟩
        · exact Or.inl ⟨List.mem_cons_self _ _, hok⟩
        · exact Or.inr hc
      · rintro (⟨hm, hw⟩ | hc)
        · rcases List.mem_cons.mp hm with rfl | hm
          · exact Or.inr (Or.inl rfl)
          · exact Or.inl ⟨hm, hw⟩
        · exact Or.inr (Or.inr hc)
    · rw [if_neg hok, ih]
      constructor
      · rintro (⟨hm, hw⟩ | hc)
        · exact Or.inl ⟨List.mem_cons_of_mem _ hm, hw⟩
        · exact Or.inr hc
      · rintro (⟨hm, hw⟩ | hc)
        · rcases List.mem_cons.mp hm with rfl | hm
          · exact absurd hw hok
          · exact Or.inl ⟨hm, hw⟩
        · exact Or.inr hc

theorem build_trie_foldl_filter : ∀ (ws : List Word) (t : Trie),
    ws.foldl (fun t w => if wordOk w then trieInsert t w else t) t
      = (ws.filter wordOk).foldl (fun t w => if wordOk w then trieInsert t w else t) t := by
  intro ws
  induction ws with
  | nil => intro t; rfl
  | cons v vs ih =>
    intro t
    rw [List.foldl_cons, List.filter_cons]
    by_cases hok : wordOk v = true
    · rw [if_pos hok, if_pos hok, List.foldl_cons, if_pos hok]
      exact ih _
    · rw [if_neg hok, if_neg (by simpa using hok)]
      exact ih _

theorem trieInsert_idem : ∀ (w : Word) (t : Trie),
    trieInsert (trieInsert t w) w = trieInsert t w := by
  intro w
  induction w with
  | nil =>
    intro t
    rcases t with ⟨term, ch⟩
    rfl
  | cons c cs ih =>
    intro t
    rcases t with ⟨term, ch⟩
    rw [trieInsert]
    cases hl : childLookup ch c with
    | some child =>
      simp only []
      rw [trieInsert, childLookup_replace_self hl]
      simp only []
      rw [ih child, replaceChild_replaceChild]
    | none =>
      simp only []
      rw [trieInsert]
      have hlook : childLookup (ch ++ [(c, trieInsert (Trie.node false []) cs)]) c
          = some (trieInsert (Trie.node false []) cs) := by
        rw [childLookup_append_none _ hl, childLookup, if_pos rfl]
      rw [hlook]
      simp only []
      rw [ih (Trie.node false []), replaceChild_self hlook]

/-- C9: the trie builder skips every candidate that is empty, contains a
non-alphabetic character, or is shorter than 3; a word reaches a terminal
node exactly when it is an accepted input word, so every root-to-terminal
path spells an accepted word of length at least 3; and re-inserting a
duplicate word is a no-op (hence raises no error). -/
theorem trie_builder_c9 :
    (∀ ws : List Word, build_trie ws = build_trie (ws.filter wordOk)) ∧
    (∀ (ws : List Word) (w : Word),
        (build_trie ws).containsWord w = true ↔ (w ∈ ws ∧ wordOk w = true)) ∧
    (∀ (t : Trie) (w : Word), trieInsert (trieInsert t w) w = trieInsert t w) ∧
    (∀ w : Word, wordOk w = true →
        w ≠ [] ∧ (∀ c ∈ w, c.isAlpha = true) ∧ 3 ≤ w.length) := by
  refine ⟨?_, ?_, fun t w => trieInsert_idem w t, ?_⟩
  · intro ws
    unfold build_trie
    exact build_trie_foldl_filter ws _
  · intro ws w
    unfold build_trie
    rw [containsWord_build_aux, containsWord_empty]
    simp
  · intro w hok
    simp only [wordOk, Bool.and_eq_true] at hok
    obtain ⟨⟨hne, hall⟩, hlen⟩ := hok
    refine ⟨?_, ?_, ?_⟩
    · intro he
      subst he
      simp at hne
    · intro c hc
      rw [List.all_eq_true] at hall
      exact hall c hc
    · exact of_decide_eq_true hlen

/-- Witness for C9's invariant consequence on a concrete accepted word. -/
theorem trie_builder_c9_witness :
    ((build_trie [['c','a','t'], ['a','b'], ['x','1','y','z']]).containsWord ['c','a','t'] = true
        ↔ (['c','a','t'] ∈ [['c','a','t'], ['a','b'], ['x','1','y','z']] ∧
            wordOk ['c','a','t'] = true)) ∧
    (['c','a','t'] ≠ ([] : Word) ∧ (∀ c ∈ (['c','a','t'] : Word), c.isAlpha = true) ∧
      3 ≤ (['c','a','t'] : Word).length) :=
  ⟨trie_builder_c9.2.1 [['c','a','t'], ['a','b'], ['x','1','y','z']] ['c','a','t'],
    trie_builder_c9.2.2.2 ['c','a','t'] (by decide)⟩
